import Mathlib

/-!
# noce: a verification development

Shallow embedding of `src/go/cmd/noce/noce.go`.

* Go byte slices are lists of naturals, Go strings are Lean strings; a prefix or
  suffix test against the ASCII patterns "." and ".sha256" gives the same answer
  on the characters as on the UTF-8 bytes.
* The local file system is a map from path to file; `os.Remove` and `os.Rename`
  act on single files.
* The two buffered channels `toDelete` and `deleteNow` are FIFO lists; the
  registry `toBeDeleted` of `handleSignals` is the list of the keys of the Go map.
* A Go panic (`log.Panicf`, a failed type assertion) is an explicit outcome.
* The 9P client, the crypto library and `ioutil.TempFile` are external: their
  results are supplied by an environment (`Env`, `Clnt`).
-/

namespace Noce

/-! ## Data model -/

/-- A Go byte slice. -/
abbrev Bytes := List Nat

/-- A local file: its content and its permission bits. -/
structure File where
  data : Bytes
  perm : Nat
deriving DecidableEq, Repr

/-- The local file system: the file found at each path, if any. -/
abbrev FS := String → Option File

/-- Create or overwrite the file at `p`. -/
def FS.write (fs : FS) (p : String) (f : File) : FS :=
  fun q => if q = p then some f else fs q

/-- The effect of `os.Remove(p)`: the file at `p` is unlinked when it exists
(the source ignores the error returned for a missing file). -/
def FS.remove (fs : FS) (p : String) : FS :=
  fun q => if q = p then none else fs q

/-- The effect of a successful `os.Rename(old, new)`: the file moves from `old`
to `new`, replacing what was there. -/
def FS.rename (fs : FS) (old new : String) : FS :=
  match fs old with
  | none => fs
  | some f => if old = new then fs else (fs.write new f).remove old

/-- The entry type `p.Dir` of the 9P library, with the two fields the program reads. -/
structure Dir where
  Name : String
  Mode : Nat
deriving DecidableEq, Repr

/-- Modelled from the spec: the directory bit of an entry's mode bits
(`isDirectory`), the constant `p.DMDIR` of the 9P library, which is not part of
the source tree. -/
def DMDIR : Nat := 0x80000000

/-- An open remote file handle (`*clnt.File`): the bytes that reading it to the
end delivers (what `io.Copy` transfers), and the results of the successive
`Readdir` calls on it; after the last scripted result `Readdir` returns an empty
batch. -/
structure RemoteFile where
  content : Bytes
  batches : List (Except String (List Dir))

/-- A mounted connection (`*clnt.Clnt`): `FOpen` either fails with an error
string or yields a handle. -/
structure Clnt where
  id : Nat
  FOpen : String → Except String RemoteFile

/-- An RSA public key. -/
structure RSAPublicKey where
  N : Nat
  E : Nat
deriving DecidableEq, Repr

/-- The dynamic type held in the `PublicKey interface{}` field of a parsed
certificate: a `*rsa.PublicKey`, or anything else (including nil). -/
inductive PublicKey where
  | rsa (k : RSAPublicKey)
  | other (typeName : String)
deriving DecidableEq, Repr

/-- A parsed X.509 certificate. -/
structure Certificate where
  PublicKey : PublicKey
deriving DecidableEq, Repr

/-- The external collaborators of the local machine. -/
structure Env where
  /-- The call `ioutil.TempFile(".", ".download-")`: the random suffix of the created file, or the error. -/
  TempFile : Except String String
  /-- The function `sha256.New()` followed by `Sum()` over everything written. -/
  Sum256 : Bytes → Bytes
  /-- The function `x509.ParseCertificate`. -/
  ParseCertificate : Bytes → Except String Certificate
  /-- The function `rsa.VerifyPKCS1v15(pub, crypto.SHA256, hash, sig)`: `none` is a nil error. -/
  VerifyPKCS1v15 : RSAPublicKey → Bytes → Bytes → Option String
  /-- Whether the operating system carries out `os.Rename(old, new)`. -/
  renameOk : String → String → Bool

/-- An incoming signal: its printed form and, for a `signal.UnixSignal`, its number. -/
structure Signal where
  text : String
  unix : Option Nat
deriving DecidableEq, Repr

/-- The state of the process and of its surroundings. -/
structure World where
  /-- The local file system. -/
  fs : FS
  /-- The buffer of the channel `toDelete`, oldest message first. -/
  toDelete : List String
  /-- The buffer of the channel `deleteNow`, oldest message first. -/
  deleteNow : List String
  /-- The keys of the map `toBeDeleted` of `handleSignals`. -/
  toBeDeleted : List String
  /-- What `fmt.Printf` wrote. -/
  stdout : List String
  /-- What the `log` package wrote. -/
  logged : List String
  /-- The durations of the calls of `time.Sleep`, in nanoseconds. -/
  slept : List Nat
  /-- The status passed to `os.Exit`, once the process has exited. -/
  exit : Option Nat

/-- Capacity of the channels `toDelete` and `deleteNow`. -/
def chanCap : Nat := 10

/-- Destination of a verified artifact. -/
def destPath : String := "software/vimini"

/-- Fixed path of the trust anchor. -/
def certPath : String := "/home/marko/Projects/efg-auth/certs/cert.crt"

/-- The call `fmt.Printf` with the formatted text `s`. -/
def World.printf (w : World) (s : String) : World := { w with stdout := w.stdout ++ [s] }

/-- The call `log.Printf` with the formatted text `s`. -/
def World.logPrintf (w : World) (s : String) : World := { w with logged := w.logged ++ [s] }

/-- The call `time.Sleep(ns)`. -/
def World.sleep (w : World) (ns : Nat) : World := { w with slept := w.slept ++ [ns] }

/-- Replace the file system. -/
def World.setFS (w : World) (fs : FS) : World := { w with fs := fs }

/-- The send `toDelete <- name`. -/
def World.sendToDelete (w : World) (name : String) : World :=
  { w with toDelete := w.toDelete ++ [name] }

/-- The send `deleteNow <- name`. -/
def World.sendDeleteNow (w : World) (name : String) : World :=
  { w with deleteNow := w.deleteNow ++ [name] }

/-! ## Go string helpers -/

/-- The function `strings.HasPrefix`: `len(s) >= len(prefix) && s[0:len(prefix)] == prefix`. -/
def HasPrefix (s pre : String) : Bool :=
  decide (pre.data.length ≤ s.data.length) && (s.data.take pre.data.length == pre.data)

/-- The function `strings.HasSuffix`: `len(s) >= len(suffix) && s[len(s)-len(suffix):] == suffix`. -/
def HasSuffix (s suf : String) : Bool :=
  decide (suf.data.length ≤ s.data.length) &&
    (s.data.drop (s.data.length - suf.data.length) == suf.data)

/-- One digit of `hextable`. -/
def hexDigit (n : Nat) : Char := "0123456789abcdef".data.getD n '0'

/-- The function `hex.EncodeToString`. -/
def EncodeToString (b : Bytes) : String :=
  String.mk (b.flatMap fun v => [hexDigit (v / 16 % 16), hexDigit (v % 16)])

/-! ## readRemoteFile, readAllRemoteFile -/

/-- The function `readRemoteFile`: the error of a failed `FOpen`, else the bytes
that `io.Copy` wrote to `dest` (the result of `io.Copy` is dropped, so a stream
that breaks off still counts as read). -/
def readRemoteFile (c : Clnt) (name : String) : Except String Bytes :=
  match c.FOpen name with
  | .error err => .error err
  | .ok file => .ok file.content

/-- The function `readAllRemoteFile`: `readRemoteFile` into a fresh buffer. -/
def readAllRemoteFile (c : Clnt) (name : String) : Except String Bytes :=
  match readRemoteFile c name with
  | .error err => .error err
  | .ok data => .ok data

/-! ## verify -/

/-- The function `ioutil.ReadFile`. -/
def ReadFile (fs : FS) (path : String) : Except String Bytes :=
  match fs path with
  | none => .error ("open " ++ path ++ ": no such file or directory")
  | some f => .ok f.data

/-- The function `verify`. `Except.error msg` is a panic: `log.Panicf` for an
unreadable or unparsable certificate, the failed type assertion
`pcert.PublicKey.(*rsa.PublicKey)` for a key that is not an RSA key. -/
def verify (env : Env) (fs : FS) (hash sig : Bytes) : Except String Bool :=
  match ReadFile fs certPath with
  | .error err => .error ("load certificate " ++ err ++ "\n")
  | .ok cert =>
    match env.ParseCertificate cert with
    | .error err => .error ("parse cert " ++ err ++ "\n")
    | .ok pcert =>
      match pcert.PublicKey with
      | .other t => .error ("interface conversion: interface is " ++ t ++ ", not *rsa.PublicKey")
      | .rsa pub => .ok (env.VerifyPKCS1v15 pub hash sig).isNone

/-! ## skip -/

/-- The function `skip`. -/
def skip (name : String) : Bool :=
  HasSuffix name ".sha256" || HasPrefix name "."

/-! ## download -/

/-- How a call of `download` ends: it returns (with a nil or non-nil `os.Error`),
or it panics. Both carry the world at that point. -/
inductive DownloadResult where
  | returned (w : World) (err : Option String)
  | panicked (w : World) (msg : String)

/-- The world at the end of a call of `download`. -/
def DownloadResult.world : DownloadResult → World
  | .returned w _ => w
  | .panicked w _ => w

/-- The name of the temp file made by `ioutil.TempFile(".", ".download-")`. -/
def tempName (suffix : String) : String := ".download-" ++ suffix

/-- The deferred `func() { deleteNow <- temp.Name() }()`: it runs when `download`
leaves, by return or by panic, after the temp file has been registered. -/
def deferDeleteNow (name : String) (w : World) : World :=
  w.sendDeleteNow name

/-- The function `download`. A send on a channel puts the message at the back of
the buffer (the sender waits while the buffer is full; capacity is part of the
step relation `Sys.step`). -/
def download (env : Env) (c : Clnt) (w : World) : DownloadResult :=
  match env.TempFile with
  | .error err => .returned w (some ("cannot create temp file: " ++ err ++ "\n"))
  | .ok suffix =>
    let name := tempName suffix
    -- the file is created empty, mode 0600
    let w := w.setFS (w.fs.write name { data := [], perm := 0o600 })
    -- toDelete <- temp.Name()
    let w := w.sendToDelete name
    -- temp.Chmod(0766)
    let w := w.setFS (w.fs.write name { data := [], perm := 0o766 })
    let w := w.printf "downloading file\n"
    match readRemoteFile c "/vimini" with
    | .error err =>
      .returned (deferDeleteNow name w) (some ("cannot read remote file: " ++ err ++ "\n"))
    | .ok body =>
      -- dest := io.MultiWriter(temp, hash)
      let w := w.setFS (w.fs.write name { data := body, perm := 0o766 })
      match readAllRemoteFile c "/vimini.sha256" with
      | .error err =>
        .returned (deferDeleteNow name w)
          (some ("cannot read remote file signature: " ++ err ++ "\n"))
      | .ok sig =>
        let sum := env.Sum256 body
        match verify env w.fs sum sig with
        | .error msg => .panicked (deferDeleteNow name (w.logPrintf msg)) msg
        | .ok valid =>
          if !valid then
            let w := w.printf ("wrong checksum: " ++ EncodeToString sum ++ " vs "
              ++ EncodeToString sig ++ "\n")
            let w := w.sleep 10000000000
            .returned (deferDeleteNow name w) none
          else
            let w := if env.renameOk name destPath then
              w.setFS (w.fs.rename name destPath) else w
            let w := w.printf "file downloaded\n"
            .returned (deferDeleteNow name w) none

/-! ## mountWait -/

/-- The loop of `mountWait`. The outcome of the `i`-th call of `clnt.Mount` is
`mount i`; `fuel` bounds the number of iterations, `none` is fuel running out. -/
def mountWaitLoop (mount : Nat → Except String Clnt) : Nat → Nat → World → Option (World × Clnt)
  | 0, _, _ => none
  | fuel + 1, i, w =>
    match mount i with
    | .error perr =>
      mountWaitLoop mount fuel (i + 1)
        ((w.logPrintf ("cannot mount: " ++ perr ++ "\n")).sleep 500000000)
    | .ok c => some (w, c)

/-- The function `mountWait`. -/
def mountWait (mount : Nat → Except String Clnt) (fuel : Nat) (w : World) : Option (World × Clnt) :=
  mountWaitLoop mount fuel 0 w

/-! ## downloader -/

/-- The function `downloader`, as the connection used by each call of `download`,
in order. The outer loop takes the next connection that `mountWait` delivers
(`mounts`); the inner loop calls `download` on it until a call returns an error,
prints the error and leaves with `break`. Each element of `envs` is the
environment of one more call of `download`; the trace ends where the script
ends or where a call panics. -/
def downloader : List Env → List Clnt → World → List Nat
  | [], _, _ => []
  | _ :: _, [], _ => []
  | env :: rest, c :: cs, w =>
    match download env c w with
    | .panicked _ _ => [c.id]
    | .returned w1 (some err) =>
      c.id :: downloader rest cs (w1.printf ("cannot download: " ++ err ++ "\n"))
    | .returned w1 none => c.id :: downloader rest (c :: cs) w1

/-! ## handleSignals -/

/-- A message that one iteration of the `select` loop of `handleSignals` receives. -/
inductive Msg where
  /-- A path received from `toDelete`. -/
  | register (path : String)
  /-- A path received from `deleteNow`. -/
  | deleteNow (path : String)
  /-- A signal received from `signal.Incoming`. -/
  | signal (sig : Signal)
deriving DecidableEq, Repr

/-- The statement `toBeDeleted[reg] = 1` on the keys of the map. -/
def mapSet (m : List String) (k : String) : List String :=
  if k ∈ m then m else m ++ [k]

/-- The statement `toBeDeleted[file] = 0, false` on the keys of the map. -/
def mapDelete (m : List String) (k : String) : List String :=
  m.filter (fun x => x != k)

/-- The loop `for el, _ := range toBeDeleted` of the signal case (the keys are
visited in the order of the list; Go leaves the order open). -/
def sweep : List String → World → World
  | [], w => w
  | el :: els, w =>
    sweep els { (w.printf ("Deleting temporary " ++ el ++ "\n")) with fs := w.fs.remove el }

/-- One iteration of the `select` loop of `handleSignals` on the message `m`.
After `os.Exit` nothing runs any more. -/
def handleSignals (m : Msg) (w : World) : World :=
  match w.exit with
  | some _ => w
  | none =>
    match m with
    | .register reg => { w with toBeDeleted := mapSet w.toBeDeleted reg }
    | .deleteNow file =>
      let w := w.printf ("deleting now " ++ file ++ "\n")
      { w with toBeDeleted := mapDelete w.toBeDeleted file, fs := w.fs.remove file }
    | .signal sig =>
      let w := w.printf ("got signal " ++ sig.text ++ "\n")
      let w := sweep w.toBeDeleted w
      match sig.unix with
      | some ux => { w with exit := some ux }
      | none => { w with exit := some 1 }

/-- The loop of `handleSignals` over the messages it receives, in order. -/
def handleAll : List Msg → World → World
  | [], w => w
  | m :: ms, w => handleAll ms (handleSignals m w)

/-- What happens between two looks at the files: one iteration of the `select`
loop of `handleSignals`, or the `os.Rename(old, new)` of `download` (which
renames the temp file onto the destination). -/
inductive Event where
  | msg (m : Msg)
  | renamed (old new : String)
deriving DecidableEq, Repr

/-- The effect of one event; once the process has exited nothing runs. -/
def runEvent (e : Event) (w : World) : World :=
  match e with
  | .msg m => handleSignals m w
  | .renamed old new =>
    match w.exit with
    | some _ => w
    | none => w.setFS (w.fs.rename old new)

/-- The effect of a sequence of events, in order. -/
def runEvents : List Event → World → World
  | [], w => w
  | e :: es, w => runEvents es (runEvent e w)

/-- The process at its start: `toBeDeleted := make(map[string]int)`, both
channels empty, nothing written. -/
def World.start (fs : FS) : World :=
  { fs := fs, toDelete := [], deleteNow := [], toBeDeleted := [], stdout := [],
    logged := [], slept := [], exit := none }

/-! ## The channels between one producer and handleSignals -/

/-- The producer of `download`: for each path it sends `register` on `toDelete`
(line 61) and then `deleteNow` on `deleteNow` (line 62, deferred). -/
def producer (paths : List String) : List Msg :=
  paths.flatMap fun p => [Msg.register p, Msg.deleteNow p]

/-- The producer together with the coordinator. -/
structure Sys where
  /-- The messages the producer has still to send, in order. -/
  pending : List Msg
  /-- The world: the two channel buffers, the registry and the files. -/
  w : World
  /-- The messages `handleSignals` has processed, oldest first. -/
  processed : List Msg

/-- A step of the system. -/
inductive Action where
  /-- The producer sends its next message on the channel of that message. -/
  | send
  /-- The `select` of `handleSignals` takes the case `reg := <-toDelete`. -/
  | recvToDelete
  /-- The `select` of `handleSignals` takes the case `file := <-deleteNow`. -/
  | recvDeleteNow
deriving DecidableEq, Repr

/-- The step relation as a function: `none` when the action is not enabled (a send
on a full buffer, a receive from an empty one). -/
def Sys.step (a : Action) (s : Sys) : Option Sys :=
  match a with
  | .send =>
    match s.pending with
    | .register p :: rest =>
      if s.w.toDelete.length < chanCap then
        some { s with pending := rest, w := { s.w with toDelete := s.w.toDelete ++ [p] } }
      else none
    | .deleteNow p :: rest =>
      if s.w.deleteNow.length < chanCap then
        some { s with pending := rest, w := { s.w with deleteNow := s.w.deleteNow ++ [p] } }
      else none
    | _ => none
  | .recvToDelete =>
    match s.w.toDelete with
    | [] => none
    | reg :: q =>
      some { s with w := handleSignals (.register reg) { s.w with toDelete := q },
                    processed := s.processed ++ [.register reg] }
  | .recvDeleteNow =>
    match s.w.deleteNow with
    | [] => none
    | file :: q =>
      some { s with w := handleSignals (.deleteNow file) { s.w with deleteNow := q },
                    processed := s.processed ++ [.deleteNow file] }

/-- A run of the system along a schedule. -/
def Sys.run : List Action → Sys → Option Sys
  | [], s => some s
  | a :: as, s =>
    match s.step a with
    | none => none
    | some s1 => Sys.run as s1

/-- The system at its start, for a producer that handles `paths` one after the other. -/
def Sys.start (fs : FS) (paths : List String) : Sys :=
  { pending := producer paths, w := World.start fs, processed := [] }

/-- The paths of the `register` messages of a list, in order. -/
def registers : List Msg → List String
  | [] => []
  | .register p :: ms => p :: registers ms
  | _ :: ms => registers ms

/-- The paths of the `deleteNow` messages of a list, in order. -/
def deletes : List Msg → List String
  | [] => []
  | .deleteNow p :: ms => p :: deletes ms
  | _ :: ms => deletes ms

/-! ## walk -/

/-- How a call of `walk` ends: it returns, it panics, or the recursion is deeper
than the fuel. Each carries the entries sent on `events` so far, oldest first. -/
inductive WalkResult where
  | done (events : List Dir)
  | panicked (events : List Dir) (msg : String)
  | outOfFuel (events : List Dir)
deriving DecidableEq, Repr

/-- The entries sent on `events` so far. -/
def WalkResult.events : WalkResult → List Dir
  | .done evs => evs
  | .panicked evs _ => evs
  | .outOfFuel evs => evs

/-- The loop `for _, e := range d` of `walk`; `recurse` is the recursive call
`walk(events, c, ...)`. -/
def walkEntries (recurse : String → List Dir → WalkResult) (path : String) :
    List Dir → List Dir → WalkResult
  | [], events => .done events
  | e :: es, events =>
    if !skip e.Name then
      let events := events ++ [e]
      if e.Mode &&& DMDIR != 0 then
        match recurse (path ++ "/" ++ e.Name) events with
        | .done events => walkEntries recurse path es events
        | r => r
      else walkEntries recurse path es events
    else walkEntries recurse path es events

/-- The loop `for { d, oerr := file.Readdir(0); ... }` of `walk` over the results
of the successive `Readdir` calls. -/
def walkBatches (recurse : String → List Dir → WalkResult) (path : String) :
    List (Except String (List Dir)) → List Dir → WalkResult
  | [], events => .done events
  | .error oerr :: _, events => .panicked events ("cannot read dir " ++ oerr)
  | .ok d :: rest, events =>
    if d.length = 0 then .done events
    else
      match walkEntries recurse path d events with
      | .done events => walkBatches recurse path rest events
      | r => r

/-- The function `walk`; `fuel` bounds the depth of the recursion. -/
def walk (c : Clnt) : Nat → String → List Dir → WalkResult
  | 0, _, events => .outOfFuel events
  | fuel + 1, path, events =>
    match c.FOpen path with
    | .error oerr => .panicked events ("cannot open dir " ++ oerr)
    | .ok file => walkBatches (walk c fuel) path file.batches events

/-! ## The remote tree, as the spec describes it -/

/-- A finite remote tree: an entry and, below a directory, its entries in
listing order. -/
inductive RTree where
  | node (entry : Dir) (children : List RTree)

/-- The entry of a node. -/
def RTree.entry : RTree → Dir
  | .node e _ => e

/-- The entries below a node. -/
def RTree.children : RTree → List RTree
  | .node _ cs => cs

mutual
/-- Depth-first pre-order traversal restricted to non-skipped entries: a skipped
entry is neither listed nor descended into; a listed directory is followed at
once by what is listed below it. -/
def preorder : RTree → List Dir
  | .node e cs =>
    if skip e.Name then [] else
      if e.Mode &&& DMDIR != 0 then e :: preorderAll cs else [e]
/-- The traversal of a list of siblings, in listing order. -/
def preorderAll : List RTree → List Dir
  | [] => []
  | t :: ts => preorder t ++ preorderAll ts
end

/-- The connection `c` serves the entries `ts` as the directory at `path`: opening
`path` yields non-empty batches whose concatenation is the list of the entries of
`ts`, followed by the end of the directory, and every non-skipped directory among
them is served in the same way at `path/name`. -/
inductive Serves (c : Clnt) : String → List RTree → Prop where
  | intro (path : String) (ts : List RTree) (file : RemoteFile) (bs : List (List Dir))
      (rest : List (Except String (List Dir)))
      (hopen : c.FOpen path = .ok file)
      (hbatches : file.batches = bs.map Except.ok ++ rest)
      (hrest : rest = [] ∨ ∃ tl, rest = .ok [] :: tl)
      (hne : ∀ b ∈ bs, b ≠ [])
      (hjoin : bs.flatten = ts.map RTree.entry)
      (hsub : ∀ t ∈ ts, skip t.entry.Name = false → t.entry.Mode &&& DMDIR ≠ 0 →
        Serves c (path ++ "/" ++ t.entry.Name) t.children) :
      Serves c path ts

/-! ## Example values -/

/-- A connection whose root lists `.hidden`, `artifact.sha256` and `artifact`. -/
def skipClnt : Clnt :=
  { id := 0
    FOpen := fun name =>
      if name = "/" then
        .ok { content := [], batches := [.ok [⟨".hidden", 0⟩, ⟨"artifact.sha256", 0⟩, ⟨"artifact", 0⟩]] }
      else .error "file not found" }

/-- An environment whose certificate parser yields an RSA key for the bytes `[1]`,
a key of another type for `[2]`, and fails otherwise; the signature check
accepts exactly the digest itself. -/
def toyEnv (suffix : String) : Env :=
  { TempFile := .ok suffix
    Sum256 := fun b => [b.sum % 256]
    ParseCertificate := fun cert =>
      if cert = [1] then .ok ⟨.rsa ⟨15, 3⟩⟩
      else if cert = [2] then .ok ⟨.other "*dsa.PublicKey"⟩
      else .error "asn1: syntax error"
    VerifyPKCS1v15 := fun _ hash sig =>
      if sig = hash then none else some "crypto/rsa: verification error"
    renameOk := fun _ _ => true }

/-- A file system holding only a certificate file with the given bytes. -/
def certFS (cert : Bytes) : FS :=
  fun q => if q = certPath then some { data := cert, perm := 0o644 } else none

/-- A connection that serves nothing. -/
def emptyClnt (id : Nat) : Clnt :=
  { id := id, FOpen := fun _ => .error "file not found" }

/-- Mount outcomes: three failures, then connection 4. -/
def toyMount (i : Nat) : Except String Clnt :=
  if i < 3 then .error "connection refused" else .ok (emptyClnt (i + 1))

/-- A file system holding two temp files. -/
def twoTempFS : FS :=
  fun q => if q = ".download-1" ∨ q = ".download-2" then some { data := [7], perm := 0o766 } else none

/-- The error string of a failed mount. -/
def mountError : Except String Clnt → String
  | .error perr => perr
  | .ok _ => ""

/-- A connection serving the artifact `body` at `/vimini` and `sig` at `/vimini.sha256`. -/
def artifactClnt (body sig : Bytes) : Clnt :=
  { id := 1
    FOpen := fun name =>
      if name = "/vimini" then .ok { content := body, batches := [] }
      else if name = "/vimini.sha256" then .ok { content := sig, batches := [] }
      else .error "file not found" }

/-- A file system holding the RSA certificate and an older artifact at the destination. -/
def installedFS : FS :=
  fun q =>
    if q = certPath then some { data := [1], perm := 0o644 }
    else if q = destPath then some { data := [9, 9], perm := 0o766 }
    else none

/-- A 1000-byte artifact. -/
def artifact1000 : Bytes := List.replicate 1000 7

/-- A connection on which opening `/vimini` fails. -/
def brokenClnt : Clnt :=
  { id := 7, FOpen := fun _ => .error "connection lost" }

/-- A remote tree: the root lists `a` (a directory), `.git` (a directory that is
skipped), `b.sha256` and `c`; `a` lists `x` and `y` (a directory, empty) in two
batches. -/
def treeClnt : Clnt :=
  { id := 3
    FOpen := fun name =>
      if name = "/" then
        .ok { content := [], batches :=
          [.ok [⟨"a", DMDIR⟩, ⟨".git", DMDIR⟩], .ok [⟨"b.sha256", 0⟩, ⟨"c", 0⟩], .ok []] }
      else if name = "//a" then
        .ok { content := [], batches := [.ok [⟨"x", 0⟩], .ok [⟨"y", DMDIR + 0o755⟩]] }
      else if name = "//a/y" then
        .ok { content := [], batches := [] }
      else .error "file not found" }

/-- The entries that `treeClnt` serves below the root. -/
def treeRoot : List RTree :=
  [ .node ⟨"a", DMDIR⟩ [.node ⟨"x", 0⟩ [], .node ⟨"y", DMDIR + 0o755⟩ []],
    .node ⟨".git", DMDIR⟩ [.node ⟨"config", 0⟩ []],
    .node ⟨"b.sha256", 0⟩ [],
    .node ⟨"c", 0⟩ [] ]

/-- The keys of the map `toBeDeleted` after `handleSignals` has processed the
messages of a list, in order, from the empty map. -/
def registryOf (ms : List Msg) : List String :=
  ms.foldl (fun r m =>
    match m with
    | .register q => mapSet r q
    | .deleteNow q => mapDelete r q
    | .signal _ => r) []

/-- What the producer has sent on `toDelete` so far: what the coordinator has
taken from it, then what still waits in the buffer. -/
def Sys.sentRegisters (s : Sys) : List String := registers s.processed ++ s.w.toDelete

/-- What the producer has sent on `deleteNow` so far. -/
def Sys.sentDeletes (s : Sys) : List String := deletes s.processed ++ s.w.deleteNow

/-- The invariant of the runs of the system for a producer that handles `paths`:
the process lives, the registry is the one the processed messages build, and the
producer stands either between two paths or between the two sends of a path. -/
def Sys.Inv (paths : List String) (s : Sys) : Prop :=
  s.w.exit = none ∧ s.w.toBeDeleted = registryOf s.processed ∧
  ∃ k, (s.pending = producer (paths.drop k) ∧ s.sentRegisters = paths.take k ∧
          s.sentDeletes = paths.take k) ∨
       (∃ p rest, paths.drop k = p :: rest ∧ s.pending = .deleteNow p :: producer rest ∧
          s.sentRegisters = paths.take k ++ [p] ∧ s.sentDeletes = paths.take k)

/-! ## Theorems -/

/-! ### Projections of the world -/

@[simp] theorem World.printf_fs (w : World) (s : String) : (w.printf s).fs = w.fs := rfl
@[simp] theorem World.printf_toDelete (w : World) (s : String) :
    (w.printf s).toDelete = w.toDelete := rfl
@[simp] theorem World.printf_deleteNow (w : World) (s : String) :
    (w.printf s).deleteNow = w.deleteNow := rfl
@[simp] theorem World.printf_toBeDeleted (w : World) (s : String) :
    (w.printf s).toBeDeleted = w.toBeDeleted := rfl
@[simp] theorem World.printf_stdout (w : World) (s : String) :
    (w.printf s).stdout = w.stdout ++ [s] := rfl
@[simp] theorem World.printf_logged (w : World) (s : String) : (w.printf s).logged = w.logged := rfl
@[simp] theorem World.printf_slept (w : World) (s : String) : (w.printf s).slept = w.slept := rfl
@[simp] theorem World.printf_exit (w : World) (s : String) : (w.printf s).exit = w.exit := rfl

@[simp] theorem World.logPrintf_fs (w : World) (s : String) : (w.logPrintf s).fs = w.fs := rfl
@[simp] theorem World.logPrintf_toDelete (w : World) (s : String) :
    (w.logPrintf s).toDelete = w.toDelete := rfl
@[simp] theorem World.logPrintf_deleteNow (w : World) (s : String) :
    (w.logPrintf s).deleteNow = w.deleteNow := rfl
@[simp] theorem World.logPrintf_exit (w : World) (s : String) :
    (w.logPrintf s).exit = w.exit := rfl

@[simp] theorem World.sleep_fs (w : World) (n : Nat) : (w.sleep n).fs = w.fs := rfl
@[simp] theorem World.sleep_toDelete (w : World) (n : Nat) :
    (w.sleep n).toDelete = w.toDelete := rfl
@[simp] theorem World.sleep_deleteNow (w : World) (n : Nat) :
    (w.sleep n).deleteNow = w.deleteNow := rfl
@[simp] theorem World.sleep_stdout (w : World) (n : Nat) : (w.sleep n).stdout = w.stdout := rfl
@[simp] theorem World.sleep_slept (w : World) (n : Nat) :
    (w.sleep n).slept = w.slept ++ [n] := rfl
@[simp] theorem World.sleep_exit (w : World) (n : Nat) : (w.sleep n).exit = w.exit := rfl

@[simp] theorem World.setFS_fs (w : World) (fs : FS) : (w.setFS fs).fs = fs := rfl
@[simp] theorem World.setFS_toDelete (w : World) (fs : FS) :
    (w.setFS fs).toDelete = w.toDelete := rfl
@[simp] theorem World.setFS_deleteNow (w : World) (fs : FS) :
    (w.setFS fs).deleteNow = w.deleteNow := rfl
@[simp] theorem World.setFS_stdout (w : World) (fs : FS) : (w.setFS fs).stdout = w.stdout := rfl
@[simp] theorem World.setFS_slept (w : World) (fs : FS) : (w.setFS fs).slept = w.slept := rfl
@[simp] theorem World.setFS_exit (w : World) (fs : FS) : (w.setFS fs).exit = w.exit := rfl

@[simp] theorem World.sendToDelete_fs (w : World) (p : String) : (w.sendToDelete p).fs = w.fs := rfl
@[simp] theorem World.sendToDelete_toDelete (w : World) (p : String) :
    (w.sendToDelete p).toDelete = w.toDelete ++ [p] := rfl
@[simp] theorem World.sendToDelete_deleteNow (w : World) (p : String) :
    (w.sendToDelete p).deleteNow = w.deleteNow := rfl
@[simp] theorem World.sendToDelete_stdout (w : World) (p : String) :
    (w.sendToDelete p).stdout = w.stdout := rfl
@[simp] theorem World.sendToDelete_slept (w : World) (p : String) :
    (w.sendToDelete p).slept = w.slept := rfl
@[simp] theorem World.sendToDelete_exit (w : World) (p : String) :
    (w.sendToDelete p).exit = w.exit := rfl

@[simp] theorem World.sendDeleteNow_fs (w : World) (p : String) :
    (w.sendDeleteNow p).fs = w.fs := rfl
@[simp] theorem World.sendDeleteNow_toDelete (w : World) (p : String) :
    (w.sendDeleteNow p).toDelete = w.toDelete := rfl
@[simp] theorem World.sendDeleteNow_deleteNow (w : World) (p : String) :
    (w.sendDeleteNow p).deleteNow = w.deleteNow ++ [p] := rfl
@[simp] theorem World.sendDeleteNow_stdout (w : World) (p : String) :
    (w.sendDeleteNow p).stdout = w.stdout := rfl
@[simp] theorem World.sendDeleteNow_slept (w : World) (p : String) :
    (w.sendDeleteNow p).slept = w.slept := rfl
@[simp] theorem World.sendDeleteNow_exit (w : World) (p : String) :
    (w.sendDeleteNow p).exit = w.exit := rfl

/-! ### skip and walk -/

theorem HasPrefix_iff (s pre : String) : HasPrefix s pre = true ↔ pre.data <+: s.data := by
  unfold HasPrefix
  simp only [Bool.and_eq_true, decide_eq_true_eq, beq_iff_eq]
  constructor
  · rintro ⟨_, h⟩
    exact h ▸ List.take_prefix _ _
  · intro h
    exact ⟨h.length_le, List.prefix_iff_eq_take.mp h |>.symm⟩

theorem HasSuffix_iff (s suf : String) : HasSuffix s suf = true ↔ suf.data <:+ s.data := by
  unfold HasSuffix
  simp only [Bool.and_eq_true, decide_eq_true_eq, beq_iff_eq]
  constructor
  · rintro ⟨_, h⟩
    exact h ▸ List.drop_suffix _ _
  · intro h
    exact ⟨h.length_le, List.suffix_iff_eq_drop.mp h |>.symm⟩

/-- An invariant of the entries sent on `events` that every send of a non-skipped
entry keeps is kept by the loop over one batch. -/
theorem walkEntries_inv (P : List Dir → Prop)
    (hP : ∀ l e, P l → skip e.Name = false → P (l ++ [e]))
    (recurse : String → List Dir → WalkResult)
    (hrec : ∀ p l, P l → P (recurse p l).events) (path : String) :
    ∀ es l, P l → P (walkEntries recurse path es l).events := by
  intro es
  induction es with
  | nil => intro l hl; simpa [walkEntries, WalkResult.events] using hl
  | cons e es ih =>
    intro l hl
    unfold walkEntries
    by_cases hs : skip e.Name = true
    · simp only [hs, Bool.not_true, Bool.false_eq_true, if_false]
      exact ih l hl
    · have hs : skip e.Name = false := by simpa using hs
      have hl1 : P (l ++ [e]) := hP l e hl hs
      simp only [hs, Bool.not_false, if_true]
      split
      · have h2 := hrec (path ++ "/" ++ e.Name) (l ++ [e]) hl1
        split
        · next evs heq =>
          rw [heq] at h2
          exact ih _ h2
        · next r hr => exact h2
      · exact ih _ hl1

theorem walkBatches_inv (P : List Dir → Prop)
    (hP : ∀ l e, P l → skip e.Name = false → P (l ++ [e]))
    (recurse : String → List Dir → WalkResult)
    (hrec : ∀ p l, P l → P (recurse p l).events) (path : String) :
    ∀ bs l, P l → P (walkBatches recurse path bs l).events := by
  intro bs
  induction bs with
  | nil => intro l hl; simpa [walkBatches, WalkResult.events] using hl
  | cons b bs ih =>
    intro l hl
    cases b with
    | error oerr => simpa [walkBatches, WalkResult.events] using hl
    | ok d =>
      unfold walkBatches
      split
      · simpa [WalkResult.events] using hl
      · have h2 := walkEntries_inv P hP recurse hrec path d l hl
        split
        · next evs heq =>
          rw [heq] at h2
          exact ih _ h2
        · exact h2

theorem walk_inv (P : List Dir → Prop)
    (hP : ∀ l e, P l → skip e.Name = false → P (l ++ [e])) (c : Clnt) :
    ∀ fuel path l, P l → P (walk c fuel path l).events := by
  intro fuel
  induction fuel with
  | zero => intro path l hl; simpa [walk, WalkResult.events] using hl
  | succ fuel ih =>
    intro path l hl
    unfold walk
    split
    · simpa [WalkResult.events] using hl
    · exact walkBatches_inv P hP (walk c fuel) ih path _ l hl

/-- C7: `skip n` is true exactly when `n` starts with "." or ends with ".sha256";
every entry that `walk` sends on the event channel (beyond those already sent)
has a name that `skip` rejects as false; and on a directory listing `.hidden`,
`artifact.sha256` and `artifact` only `artifact` is sent. -/
theorem skip_iff_and_walk_emits_only_unskipped :
    (∀ n : String, skip n = true ↔ (".".data <+: n.data ∨ ".sha256".data <:+ n.data)) ∧
    (∀ (c : Clnt) (fuel : Nat) (path : String) (sent : List Dir) (e : Dir),
      e ∈ (walk c fuel path sent).events → e ∈ sent ∨ skip e.Name = false) ∧
    (skip ".hidden" = true ∧ skip "artifact.sha256" = true ∧ skip "artifact" = false ∧
      walk skipClnt 1 "/" [] = .done [⟨"artifact", 0⟩]) := by
  refine ⟨?_, ?_, ?_⟩
  · intro n
    unfold skip
    rw [Bool.or_eq_true, HasPrefix_iff, HasSuffix_iff]
    exact Or.comm
  · intro c fuel path sent e he
    exact walk_inv (fun l => ∀ x ∈ l, x ∈ sent ∨ skip x.Name = false)
      (by
        intro l x hl hx y hy
        rcases List.mem_append.mp hy with h | h
        · exact hl y h
        · rw [List.mem_singleton.mp h]; exact Or.inr hx)
      c fuel path sent (fun x hx => Or.inl hx) e he
  · refine ⟨by decide, by decide, by decide, by decide⟩

/-! ### verify -/

/-- C6 (as stated) fails: a certificate that is readable and parsable but holds a
key that is not an RSA key makes `verify` panic instead of returning a verdict. -/
theorem verify_panics_on_parsable_certificate :
    ReadFile (certFS [2]) certPath = .ok [2] ∧
    (toyEnv "1").ParseCertificate [2] = .ok ⟨.other "*dsa.PublicKey"⟩ ∧
    verify (toyEnv "1") (certFS [2]) [171] [171] =
      .error "interface conversion: interface is *dsa.PublicKey, not *rsa.PublicKey" := by
  refine ⟨rfl, rfl, rfl⟩

/-- C6 (amended): `verify` panics, yielding no verdict, exactly when the
certificate is unreadable, unparsable, or holds a key that is not an RSA key;
otherwise it returns the boolean that is true exactly when
`rsa.VerifyPKCS1v15` over the digest and the signature under the key of the
certificate returns a nil error. -/
theorem verify_verdict (env : Env) (fs : FS) (hash sig : Bytes) :
    ((∃ msg, verify env fs hash sig = .error msg) ↔
      ((∃ err, ReadFile fs certPath = .error err) ∨
       (∃ cert err, ReadFile fs certPath = .ok cert ∧ env.ParseCertificate cert = .error err) ∨
       (∃ cert t, ReadFile fs certPath = .ok cert ∧
          env.ParseCertificate cert = .ok ⟨PublicKey.other t⟩))) ∧
    (∀ b, verify env fs hash sig = .ok b ↔
      ∃ cert pub, ReadFile fs certPath = .ok cert ∧
        env.ParseCertificate cert = .ok ⟨PublicKey.rsa pub⟩ ∧
        (b = true ↔ env.VerifyPKCS1v15 pub hash sig = none)) := by
  cases hr : ReadFile fs certPath with
  | error err => simp [verify, hr]
  | ok cert =>
    cases hp : env.ParseCertificate cert with
    | error err => simp [verify, hr, hp]
    | ok pcert =>
      obtain ⟨key⟩ := pcert
      cases key with
      | other t => simp [verify, hr, hp]
      | rsa pub =>
        have hv : verify env fs hash sig = .ok (env.VerifyPKCS1v15 pub hash sig).isNone := by
          simp [verify, hr, hp]
        rw [hv]
        refine ⟨by simp [hp], ?_⟩
        intro b
        constructor
        · intro h
          refine ⟨cert, pub, rfl, hp, ?_⟩
          simp only [Except.ok.injEq] at h
          rw [← h]
          cases env.VerifyPKCS1v15 pub hash sig <;> simp
        · rintro ⟨cert1, pub1, h1, h2, h3⟩
          simp only [Except.ok.injEq] at h1
          subst h1
          rw [hp] at h2
          simp only [Except.ok.injEq, Certificate.mk.injEq, PublicKey.rsa.injEq] at h2
          subst h2
          cases b <;> cases hv : env.VerifyPKCS1v15 pub hash sig <;> simp [hv] at h3 ⊢

/-! ### handleSignals -/

theorem sweep_exit (l : List String) (w : World) : (sweep l w).exit = w.exit := by
  induction l generalizing w with
  | nil => rfl
  | cons el els ih => simp [sweep, ih, World.printf]

theorem sweep_fs (l : List String) (w : World) (q : String) :
    (sweep l w).fs q = if q ∈ l then none else w.fs q := by
  induction l generalizing w with
  | nil => simp [sweep]
  | cons el els ih =>
    simp only [sweep, ih, World.printf, FS.remove, List.mem_cons]
    by_cases h1 : q ∈ els <;> by_cases h2 : q = el <;> simp [h1, h2]

theorem mem_mapSet (m : List String) (k p : String) :
    p ∈ mapSet m k ↔ p ∈ m ∨ p = k := by
  unfold mapSet
  split
  · constructor
    · exact Or.inl
    · rintro (h | h)
      · exact h
      · exact h ▸ ‹k ∈ m›
  · simp

theorem mem_mapDelete (m : List String) (k p : String) :
    p ∈ mapDelete m k ↔ p ∈ m ∧ p ≠ k := by
  simp [mapDelete]

/-- A message that is not a signal. -/
theorem handleSignals_exit (m : Msg) (w : World) (hm : ∀ s, m ≠ .signal s) :
    (handleSignals m w).exit = w.exit := by
  unfold handleSignals
  cases hw : w.exit with
  | some x => simp [hw]
  | none =>
    cases m with
    | register p => simp [hw]
    | deleteNow p => simp [hw, World.printf]
    | signal s => exact absurd rfl (hm s)

/-- While the process lives, a path that is registered or has no file stays so
under `register` and `deleteNow`. -/
theorem handleSignals_keeps (m : Msg) (w : World) (p : String) (hm : ∀ s, m ≠ .signal s)
    (h : p ∈ w.toBeDeleted ∨ w.fs p = none) :
    p ∈ (handleSignals m w).toBeDeleted ∨ (handleSignals m w).fs p = none := by
  unfold handleSignals
  cases hw : w.exit with
  | some x => simpa [hw] using h
  | none =>
    cases m with
    | register q =>
      simp only [hw, mem_mapSet]
      rcases h with h | h
      · exact Or.inl (Or.inl h)
      · exact Or.inr h
    | deleteNow q =>
      simp only [hw, World.printf, mem_mapDelete, FS.remove]
      by_cases hq : p = q
      · right; simp [hq]
      · rcases h with h | h
        · exact Or.inl ⟨h, hq⟩
        · right; simp [hq, h]
    | signal s => exact absurd rfl (hm s)

/-- A rename onto another path keeps a path registered or without a file. -/
theorem rename_keeps (fs : FS) (old new p : String) (hnew : new ≠ p) (h : fs p = none) :
    fs.rename old new p = none := by
  unfold FS.rename
  cases hold : fs old with
  | none => exact h
  | some f =>
    simp only
    split
    · exact h
    · by_cases hp : p = old
      · simp [FS.remove, hp]
      · have hp2 : p ≠ new := fun hh => hnew hh.symm
        simp [FS.remove, FS.write, hp, hp2, h]

theorem runEvent_exit (e : Event) (w : World) (he : ∀ s, e ≠ .msg (.signal s)) :
    (runEvent e w).exit = w.exit := by
  cases e with
  | msg m => exact handleSignals_exit m w (fun s h => he s (by rw [h]))
  | renamed old new =>
    unfold runEvent
    cases hw : w.exit <;> simp [hw]

theorem runEvent_keeps (e : Event) (w : World) (p : String) (he : ∀ s, e ≠ .msg (.signal s))
    (hnew : ∀ old, e ≠ .renamed old p)
    (h : p ∈ w.toBeDeleted ∨ w.fs p = none) :
    p ∈ (runEvent e w).toBeDeleted ∨ (runEvent e w).fs p = none := by
  cases e with
  | msg m => exact handleSignals_keeps m w p (fun s hh => he s (by rw [hh])) h
  | renamed old new =>
    have hne : new ≠ p := fun hh => hnew old (by rw [hh])
    unfold runEvent
    cases hw : w.exit with
    | some x => simpa using h
    | none =>
      rcases h with h | h
      · exact Or.inl h
      · exact Or.inr (by simpa using rename_keeps w.fs old new p hne h)

theorem runEvents_exit (es : List Event) (w : World) (he : ∀ e ∈ es, ∀ s, e ≠ .msg (.signal s)) :
    (runEvents es w).exit = w.exit := by
  induction es generalizing w with
  | nil => rfl
  | cons e es ih =>
    simp only [runEvents]
    rw [ih _ (fun x hx => he x (List.mem_cons_of_mem _ hx)),
      runEvent_exit e w (he e (List.mem_cons_self _ _))]

theorem runEvents_keeps (es : List Event) (w : World) (p : String)
    (he : ∀ e ∈ es, ∀ s, e ≠ .msg (.signal s)) (hnew : ∀ old, Event.renamed old p ∉ es)
    (h : p ∈ w.toBeDeleted ∨ w.fs p = none) :
    p ∈ (runEvents es w).toBeDeleted ∨ (runEvents es w).fs p = none := by
  induction es generalizing w with
  | nil => exact h
  | cons e es ih =>
    simp only [runEvents]
    exact ih _ (fun x hx => he x (List.mem_cons_of_mem _ hx))
      (fun old hh => hnew old (List.mem_cons_of_mem _ hh))
      (runEvent_keeps e w p (he e (List.mem_cons_self _ _))
        (fun old hh => hnew old (by rw [hh]; exact List.mem_cons_self _ _)) h)

theorem runEvents_registered (es : List Event) (w : World) (p : String)
    (he : ∀ e ∈ es, ∀ s, e ≠ .msg (.signal s)) (hnew : ∀ old, Event.renamed old p ∉ es)
    (hw : w.exit = none) (hp : Event.msg (.register p) ∈ es) :
    p ∈ (runEvents es w).toBeDeleted ∨ (runEvents es w).fs p = none := by
  induction es generalizing w with
  | nil => cases hp
  | cons e es ih =>
    simp only [runEvents]
    have he1 := he e (List.mem_cons_self _ _)
    have hes : ∀ x ∈ es, ∀ s, x ≠ .msg (.signal s) := fun x hx => he x (List.mem_cons_of_mem _ hx)
    have hnews : ∀ old, Event.renamed old p ∉ es := fun old hh => hnew old (List.mem_cons_of_mem _ hh)
    rcases List.mem_cons.mp hp with h | h
    · subst h
      apply runEvents_keeps _ _ _ hes hnews
      left
      simp [runEvent, handleSignals, hw, mem_mapSet]
    · exact ih _ hes hnews (by rw [runEvent_exit e w he1, hw]) h

theorem runEvents_append (es fs : List Event) (w : World) :
    runEvents (es ++ fs) w = runEvents fs (runEvents es w) := by
  induction es generalizing w with
  | nil => rfl
  | cons e es ih => simp [runEvents, ih]

/-- C3: from any live state of the coordinator, after any sequence of processed
`register`/`deleteNow` messages (with renames by the downloader in between, none
of them onto the path) followed by a termination signal, no path whose
registration was processed exists as a file, whether it was swept, deleted at
once or renamed away, and the process has exited with the number of the signal
(1 when the signal has none). -/
theorem cleanup_invariant (w : World) (events : List Event) (sig : Signal) (p : String)
    (hlive : w.exit = none) (hev : ∀ e ∈ events, ∀ s, e ≠ .msg (.signal s))
    (hnew : ∀ old, Event.renamed old p ∉ events)
    (hp : Event.msg (.register p) ∈ events) :
    (runEvents (events ++ [.msg (.signal sig)]) w).fs p = none ∧
    (runEvents (events ++ [.msg (.signal sig)]) w).exit = some (sig.unix.getD 1) := by
  rw [runEvents_append]
  have hex : (runEvents events w).exit = none := by rw [runEvents_exit events w hev, hlive]
  have hreg := runEvents_registered events w p hev hnew hlive hp
  generalize runEvents events w = w1 at hex hreg
  simp only [runEvents, runEvent, handleSignals, hex]
  constructor
  · cases hu : sig.unix <;>
    · simp only [sweep_fs, World.printf]
      rcases hreg with h | h
      · simp [h]
      · simp [h]
  · cases hu : sig.unix <;> simp [sweep_exit, hex]

/-- C3, witness: two temp files exist and are registered, then SIGINT arrives:
both are deleted and the process exits with status 2. -/
theorem cleanup_invariant_witness :
    twoTempFS ".download-1" ≠ none ∧ twoTempFS ".download-2" ≠ none ∧
    (runEvents ([.msg (.register ".download-1"), .msg (.register ".download-2")] ++
        [.msg (.signal ⟨"SIGINT: interrupt", some 2⟩)]) (World.start twoTempFS)).fs ".download-1"
      = none ∧
    (runEvents ([.msg (.register ".download-1"), .msg (.register ".download-2")] ++
        [.msg (.signal ⟨"SIGINT: interrupt", some 2⟩)]) (World.start twoTempFS)).fs ".download-2"
      = none ∧
    (runEvents ([.msg (.register ".download-1"), .msg (.register ".download-2")] ++
        [.msg (.signal ⟨"SIGINT: interrupt", some 2⟩)]) (World.start twoTempFS)).exit
      = some 2 :=
  ⟨by decide, by decide,
    (cleanup_invariant (World.start twoTempFS)
      [.msg (.register ".download-1"), .msg (.register ".download-2")]
      ⟨"SIGINT: interrupt", some 2⟩ ".download-1" rfl (by simp) (by simp) (by simp)).1,
    (cleanup_invariant (World.start twoTempFS)
      [.msg (.register ".download-1"), .msg (.register ".download-2")]
      ⟨"SIGINT: interrupt", some 2⟩ ".download-2" rfl (by simp) (by simp) (by simp)).1,
    (cleanup_invariant (World.start twoTempFS)
      [.msg (.register ".download-1"), .msg (.register ".download-2")]
      ⟨"SIGINT: interrupt", some 2⟩ ".download-2" rfl (by simp) (by simp) (by simp)).2⟩

/-! ### mountWait -/

theorem mountWaitLoop_spec (mount : Nat → Except String Clnt) (c : Clnt) :
    ∀ (k i fuel : Nat) (w : World),
      (∀ j, j < k → ∃ perr, mount (i + j) = .error perr) → mount (i + k) = .ok c → k < fuel →
      mountWaitLoop mount fuel i w = some
        ({ w with
            logged := w.logged ++ (List.range k).map
              (fun j => "cannot mount: " ++ mountError (mount (i + j)) ++ "\n")
            slept := w.slept ++ List.replicate k 500000000 }, c) := by
  intro k
  induction k with
  | zero =>
    intro i fuel w _ hok hfuel
    obtain ⟨f, rfl⟩ : ∃ f, fuel = f + 1 := ⟨fuel - 1, by omega⟩
    simp only [Nat.add_zero] at hok
    simp [mountWaitLoop, hok]
  | succ k ih =>
    intro i fuel w hfail hok hfuel
    obtain ⟨f, rfl⟩ : ∃ f, fuel = f + 1 := ⟨fuel - 1, by omega⟩
    obtain ⟨perr, hperr⟩ := hfail 0 (by omega)
    simp only [Nat.add_zero] at hperr
    have hfail1 : ∀ j, j < k → ∃ perr, mount (i + 1 + j) = .error perr := by
      intro j hj
      have := hfail (j + 1) (by omega)
      rwa [show i + (j + 1) = i + 1 + j by omega] at this
    have hok1 : mount (i + 1 + k) = .ok c := by
      rwa [show i + (k + 1) = i + 1 + k by omega] at hok
    have := ih (i + 1) f ((w.logPrintf ("cannot mount: " ++ perr ++ "\n")).sleep 500000000)
      hfail1 hok1 (by omega)
    simp only [mountWaitLoop, hperr, this]
    simp only [World.logPrintf, World.sleep, List.range_succ_eq_map, List.map_cons,
      List.map_map, Nat.add_zero, hperr, mountError, List.replicate_succ, List.append_assoc,
      List.singleton_append, Option.some.injEq, Prod.mk.injEq, and_true]
    congr 2
    apply congrArg
    apply List.map_congr_left
    intro j _
    simp [show i + 1 + j = i + (j + 1) by omega]

/-- C9: when the first `n` calls of `clnt.Mount` fail and the next one succeeds
with connection `c`, `mountWait` returns (for every fuel above `n`) exactly `c`,
having logged the `n` failures in order and slept 500ms `n` times, and having
changed nothing else. -/
theorem mountWait_returns_first_success (mount : Nat → Except String Clnt) (n : Nat) (c : Clnt)
    (w : World) (fuel : Nat)
    (hfail : ∀ i, i < n → ∃ perr, mount i = .error perr) (hok : mount n = .ok c)
    (hfuel : n < fuel) :
    mountWait mount fuel w = some
      ({ w with
          logged := w.logged ++ (List.range n).map
            (fun i => "cannot mount: " ++ mountError (mount i) ++ "\n")
          slept := w.slept ++ List.replicate n 500000000 }, c) := by
  have h := mountWaitLoop_spec mount c n 0 fuel w
    (by intro j hj; simpa using hfail j hj) (by simpa using hok) hfuel
  simpa [mountWait] using h

/-- C9, witness: three failures, then success: the fourth connection is returned
after three log lines and three sleeps of 500ms. -/
theorem mountWait_returns_first_success_witness :
    (mountWait toyMount 4 (World.start (certFS [1]))).map (fun r => (r.2.id, r.1.logged, r.1.slept))
      = some (4, ["cannot mount: connection refused\n", "cannot mount: connection refused\n",
          "cannot mount: connection refused\n"], [500000000, 500000000, 500000000]) := by
  rw [mountWait_returns_first_success toyMount 3 (emptyClnt 4) (World.start (certFS [1])) 4
    (by
      intro i hi
      exact ⟨"connection refused", by simp [toyMount, hi]⟩)
    rfl (by decide)]
  rfl

/-! ### download -/

theorem tempName_ne_destPath (suffix : String) : tempName suffix ≠ destPath := by
  intro h
  have := congrArg String.data h
  simp [tempName, destPath, String.data_append] at this

theorem tempName_ne_certPath (suffix : String) : tempName suffix ≠ certPath := by
  intro h
  have := congrArg String.data h
  simp [tempName, certPath, String.data_append] at this

theorem verify_congr (env : Env) (fs1 fs2 : FS) (hash sig : Bytes)
    (h : fs1 certPath = fs2 certPath) : verify env fs1 hash sig = verify env fs2 hash sig := by
  simp [verify, ReadFile, h]

/-- Writing the temp file does not change the verdict of `verify`. -/
theorem verify_write_temp (env : Env) (fs : FS) (suffix : String) (f : File) (hash sig : Bytes) :
    verify env (fs.write (tempName suffix) f) hash sig = verify env fs hash sig := by
  apply verify_congr
  have := (tempName_ne_certPath suffix).symm
  simp [FS.write, this]

/-- Messages about one path leave every other path as it is. -/
theorem handleAll_fs_other (ms : List Msg) (w : World) (p q : String) (hpq : q ≠ p)
    (hms : ∀ m ∈ ms, m = .register p ∨ m = .deleteNow p) :
    (handleAll ms w).fs q = w.fs q := by
  induction ms generalizing w with
  | nil => rfl
  | cons m ms ih =>
    simp only [handleAll]
    rw [ih _ (fun x hx => hms x (List.mem_cons_of_mem _ hx))]
    rcases hms m (List.mem_cons_self _ _) with h | h <;> subst h <;>
      cases hw : w.exit <;> simp [handleSignals, hw, World.printf, FS.remove, hpq]

/-- Messages about one path never bring its file back. -/
theorem handleAll_fs_none (ms : List Msg) (w : World) (p : String) (hp : w.fs p = none)
    (hms : ∀ m ∈ ms, m = .register p ∨ m = .deleteNow p) :
    (handleAll ms w).fs p = none := by
  induction ms generalizing w with
  | nil => exact hp
  | cons m ms ih =>
    simp only [handleAll]
    apply ih _ _ (fun x hx => hms x (List.mem_cons_of_mem _ hx))
    rcases hms m (List.mem_cons_self _ _) with h | h <;> subst h <;>
      cases hw : w.exit <;> simp [handleSignals, hw, World.printf, FS.remove, hp]

/-- The destination is modified by a call of `download`, whether it returns or
panics, only when `verify` returned true on the digest of the bytes written to
the temp file and the fetched signature. -/
theorem download_modifies_only_when_verified (env : Env) (c : Clnt) (w : World)
    (h : (download env c w).world.fs destPath ≠ w.fs destPath) :
    ∃ suffix body sig, env.TempFile = .ok suffix ∧ readRemoteFile c "/vimini" = .ok body ∧
      readAllRemoteFile c "/vimini.sha256" = .ok sig ∧
      verify env w.fs (env.Sum256 body) sig = .ok true := by
  unfold download at h
  cases hT : env.TempFile with
  | error err => simp [hT, DownloadResult.world] at h
  | ok suffix =>
    have hne := (tempName_ne_destPath suffix).symm
    cases hB : readRemoteFile c "/vimini" with
    | error err =>
      simp [hT, hB, DownloadResult.world, deferDeleteNow, FS.write, hne] at h
    | ok body =>
      cases hS : readAllRemoteFile c "/vimini.sha256" with
      | error err =>
        simp [hT, hB, hS, DownloadResult.world, deferDeleteNow, FS.write, hne] at h
      | ok sig =>
        cases hV : verify env w.fs (env.Sum256 body) sig with
        | error msg =>
          simp [hT, hB, hS, hV, verify_write_temp, DownloadResult.world, deferDeleteNow,
            FS.write, hne] at h
        | ok valid =>
          cases valid with
          | false =>
            simp [hT, hB, hS, hV, verify_write_temp, DownloadResult.world, deferDeleteNow,
              FS.write, hne] at h
          | true => exact ⟨suffix, body, sig, rfl, rfl, rfl, hV⟩

/-- C1: when `verify` returns false on the digest of the bytes written to the temp
file and the fetched signature, `download` returns and the content of
`software/vimini` is what it was before, also after the coordinator has
processed the messages about the temp file; and whenever a call of `download`
changes the destination, `verify` returned true. -/
theorem download_invalid_keeps_destination (env : Env) (c : Clnt) (w : World) :
    (∀ suffix body sig, env.TempFile = .ok suffix → readRemoteFile c "/vimini" = .ok body →
      readAllRemoteFile c "/vimini.sha256" = .ok sig →
      verify env w.fs (env.Sum256 body) sig = .ok false →
      ∃ w1, download env c w = .returned w1 none ∧ w1.fs destPath = w.fs destPath ∧
        ∀ ms, (∀ m ∈ ms, m = .register (tempName suffix) ∨ m = .deleteNow (tempName suffix)) →
          (handleAll ms w1).fs destPath = w.fs destPath) ∧
    ((download env c w).world.fs destPath ≠ w.fs destPath →
      ∃ suffix body sig, env.TempFile = .ok suffix ∧ readRemoteFile c "/vimini" = .ok body ∧
        readAllRemoteFile c "/vimini.sha256" = .ok sig ∧
        verify env w.fs (env.Sum256 body) sig = .ok true) := by
  refine ⟨?_, download_modifies_only_when_verified env c w⟩
  intro suffix body sig hT hB hS hV
  have hne := (tempName_ne_destPath suffix).symm
  have hd : (download env c w).world.fs destPath = w.fs destPath := by
    by_contra hcon
    obtain ⟨s2, b2, g2, h1, h2, h3, h4⟩ := download_modifies_only_when_verified env c w hcon
    rw [hB] at h2
    rw [hS] at h3
    cases h2
    cases h3
    rw [hV] at h4
    cases h4
  have hret : ∃ w1, download env c w = .returned w1 none := by
    simp [download, hT, hB, hS, verify_write_temp, hV]
  obtain ⟨w1, hw1⟩ := hret
  rw [hw1] at hd
  refine ⟨w1, hw1, hd, ?_⟩
  intro ms hms
  rw [handleAll_fs_other ms w1 (tempName suffix) destPath hne hms]
  exact hd

/-- C1, witness: an artifact with a wrong signature leaves the older artifact at
the destination. -/
theorem download_invalid_keeps_destination_witness :
    verify (toyEnv "42") installedFS ((toyEnv "42").Sum256 [1, 2, 3]) [0] = .ok false ∧
    ∃ w1, download (toyEnv "42") (artifactClnt [1, 2, 3] [0]) (World.start installedFS)
        = .returned w1 none ∧
      w1.fs destPath = some { data := [9, 9], perm := 0o766 } := by
  have h := (download_invalid_keeps_destination (toyEnv "42") (artifactClnt [1, 2, 3] [0])
    (World.start installedFS)).1 "42" [1, 2, 3] [0] rfl rfl rfl rfl
  obtain ⟨w1, h1, h2, _⟩ := h
  exact ⟨rfl, w1, h1, h2⟩

/-- C2: when the temp file is created, the artifact `body` and a signature are
fetched, `verify` returns true on the digest of `body` and the signature, and the
rename succeeds, `download` returns without error having sent `register` and
`deleteNow` for the temp file, and once the coordinator has processed these
messages, in whatever order, `software/vimini` holds exactly `body` and no file
has the name of the temp file. -/
theorem download_valid_promotes (env : Env) (c : Clnt) (w : World)
    (suffix : String) (body sig : Bytes)
    (hT : env.TempFile = .ok suffix) (hB : readRemoteFile c "/vimini" = .ok body)
    (hS : readAllRemoteFile c "/vimini.sha256" = .ok sig)
    (hV : verify env w.fs (env.Sum256 body) sig = .ok true)
    (hR : env.renameOk (tempName suffix) destPath = true) :
    ∃ w1, download env c w = .returned w1 none ∧
      w1.toDelete = w.toDelete ++ [tempName suffix] ∧
      w1.deleteNow = w.deleteNow ++ [tempName suffix] ∧
      ∀ ms, (∀ m ∈ ms, m = .register (tempName suffix) ∨ m = .deleteNow (tempName suffix)) →
        (handleAll ms w1).fs destPath = some { data := body, perm := 0o766 } ∧
        (handleAll ms w1).fs (tempName suffix) = none := by
  have hne := (tempName_ne_destPath suffix).symm
  refine ⟨_, by simp [download, hT, hB, hS, verify_write_temp, hV, hR]; rfl, ?_, ?_, ?_⟩
  · simp [deferDeleteNow]
  · simp [deferDeleteNow]
  · intro ms hms
    constructor
    · rw [handleAll_fs_other ms _ (tempName suffix) destPath hne hms]
      simp [deferDeleteNow, FS.rename, FS.write, FS.remove, hne, (tempName_ne_destPath suffix)]
    · apply handleAll_fs_none ms _ (tempName suffix) _ hms
      simp [deferDeleteNow, FS.rename, FS.write, FS.remove, (tempName_ne_destPath suffix)]

set_option maxRecDepth 20000 in
/-- C2, witness: a 1000-byte artifact with a valid signature ends up at the
destination, replacing the older artifact, and the temp file name is gone. -/
theorem download_valid_promotes_witness :
    artifact1000.length = 1000 ∧
    verify (toyEnv "42") installedFS ((toyEnv "42").Sum256 artifact1000) [88] = .ok true ∧
    ∃ w1, download (toyEnv "42") (artifactClnt artifact1000 [88]) (World.start installedFS)
        = .returned w1 none ∧
      (handleAll [.register ".download-42", .deleteNow ".download-42"] w1).fs destPath
        = some { data := artifact1000, perm := 0o766 } ∧
      (handleAll [.register ".download-42", .deleteNow ".download-42"] w1).fs ".download-42"
        = none := by
  have hv : verify (toyEnv "42") installedFS ((toyEnv "42").Sum256 artifact1000) [88]
      = .ok true := by
    simp [verify, ReadFile, installedFS, toyEnv, artifact1000]
  obtain ⟨w1, h1, _, _, h4⟩ := download_valid_promotes (toyEnv "42")
    (artifactClnt artifact1000 [88]) (World.start installedFS) "42" artifact1000 [88]
    rfl rfl rfl hv rfl
  have h5 := h4 [.register ".download-42", .deleteNow ".download-42"]
    (by intro m hm; simpa [tempName] using hm)
  exact ⟨by simp [artifact1000], hv, w1, h1, h5.1, h5.2⟩

/-- C4 (as stated) fails: when `readRemoteFile` returns an error, `download`
returns the read error and the deferred send has put `deleteNow` for the temp
path on the channel; once the coordinator has processed the registration and
that message, the path is not in the registry and the temp file is gone. -/
theorem download_read_error_issues_deleteNow :
    readRemoteFile brokenClnt "/vimini" = .error "connection lost" ∧
    (∃ w1, download (toyEnv "42") brokenClnt (World.start installedFS)
        = .returned w1 (some "cannot read remote file: connection lost\n") ∧
      w1.toDelete = [".download-42"] ∧
      w1.deleteNow = [".download-42"] ∧
      w1.fs ".download-42" = some { data := [], perm := 0o766 } ∧
      (handleAll [.register ".download-42", .deleteNow ".download-42"] w1).toBeDeleted = [] ∧
      (handleAll [.register ".download-42", .deleteNow ".download-42"] w1).fs ".download-42"
        = none) :=
  ⟨rfl, _, rfl, rfl, rfl, rfl, rfl, rfl⟩

/-- C4 (amended): when `readRemoteFile` returns an error, `download` returns the
read error, leaves the temp file in place, and has sent `register` and then (by
the deferred send) `deleteNow` for the temp path; once a live coordinator has
processed the registration and then the `deleteNow`, the path is not in the
registry and the temp file does not exist. -/
theorem download_read_error (env : Env) (c : Clnt) (w : World) (suffix err : String)
    (hT : env.TempFile = .ok suffix) (hB : readRemoteFile c "/vimini" = .error err) :
    ∃ w1, download env c w = .returned w1 (some ("cannot read remote file: " ++ err ++ "\n")) ∧
      w1.toDelete = w.toDelete ++ [tempName suffix] ∧
      w1.deleteNow = w.deleteNow ++ [tempName suffix] ∧
      w1.fs (tempName suffix) = some { data := [], perm := 0o766 } ∧
      w1.fs destPath = w.fs destPath ∧
      (w.exit = none →
        tempName suffix ∉
          (handleAll [.register (tempName suffix), .deleteNow (tempName suffix)] w1).toBeDeleted ∧
        (handleAll [.register (tempName suffix), .deleteNow (tempName suffix)] w1).fs
          (tempName suffix) = none) := by
  have hne := (tempName_ne_destPath suffix).symm
  refine ⟨_, by simp [download, hT, hB]; rfl, ?_, ?_, ?_, ?_, ?_⟩
  · simp [deferDeleteNow]
  · simp [deferDeleteNow]
  · simp [deferDeleteNow, FS.write]
  · simp [deferDeleteNow, FS.write, hne]
  · intro hw
    simp [handleAll, handleSignals, deferDeleteNow, hw, mem_mapDelete, FS.remove]

/-- C4 (amended), witness: a failed open of `/vimini`. -/
theorem download_read_error_witness :
    ∃ w1, download (toyEnv "42") brokenClnt (World.start installedFS)
        = .returned w1 (some ("cannot read remote file: " ++ "connection lost" ++ "\n")) ∧
      w1.deleteNow = (World.start installedFS).deleteNow ++ [tempName "42"] := by
  obtain ⟨w1, h1, _, h3, _⟩ := download_read_error (toyEnv "42") brokenClnt
    (World.start installedFS) "42" "connection lost" rfl rfl
  exact ⟨w1, h1, h3⟩

/-- C5 (as stated) fails: with a signature that `verify` rejects, `download`
returns a nil error, and `downloader` makes its next call on the same
connection. -/
theorem download_invalid_returns_nil :
    verify (toyEnv "42") installedFS ((toyEnv "42").Sum256 [1, 2, 3]) [0] = .ok false ∧
    (∃ w1, download (toyEnv "42") (artifactClnt [1, 2, 3] [0]) (World.start installedFS)
        = .returned w1 none) ∧
    downloader [toyEnv "42", toyEnv "43"] [artifactClnt [1, 2, 3] [0], emptyClnt 2]
        (World.start installedFS) = [1, 1] :=
  ⟨rfl, ⟨_, rfl⟩, rfl⟩

/-- C5 (amended): when `verify` returns false, `download` prints the digest and
the signature in hex, sleeps 10s and returns a nil error; `downloader` therefore
does not leave its inner loop: its next call of `download` is on the same
connection. -/
theorem download_invalid_reports_nil (env : Env) (c : Clnt) (w : World)
    (suffix : String) (body sig : Bytes)
    (hT : env.TempFile = .ok suffix) (hB : readRemoteFile c "/vimini" = .ok body)
    (hS : readAllRemoteFile c "/vimini.sha256" = .ok sig)
    (hV : verify env w.fs (env.Sum256 body) sig = .ok false) :
    ∃ w1, download env c w = .returned w1 none ∧
      w1.stdout = w.stdout ++ ["downloading file\n",
        "wrong checksum: " ++ EncodeToString (env.Sum256 body) ++ " vs "
          ++ EncodeToString sig ++ "\n"] ∧
      w1.slept = w.slept ++ [10000000000] ∧
      ∀ (rest : List Env) (cs : List Clnt),
        downloader (env :: rest) (c :: cs) w = c.id :: downloader rest (c :: cs) w1 := by
  have hd : download env c w = .returned
      (deferDeleteNow (tempName suffix)
        ((((((((w.setFS (w.fs.write (tempName suffix) { data := [], perm := 0o600 })).sendToDelete
          (tempName suffix)).setFS ((w.fs.write (tempName suffix) { data := [], perm := 0o600 }).write
            (tempName suffix) { data := [], perm := 0o766 })).printf "downloading file\n").setFS
              (((w.fs.write (tempName suffix) { data := [], perm := 0o600 }).write
                (tempName suffix) { data := [], perm := 0o766 }).write (tempName suffix)
                  { data := body, perm := 0o766 })).printf
                    ("wrong checksum: " ++ EncodeToString (env.Sum256 body) ++ " vs "
                      ++ EncodeToString sig ++ "\n")).sleep 10000000000))) none := by
    simp [download, hT, hB, hS, verify_write_temp, hV]
  refine ⟨_, hd, ?_, ?_, ?_⟩
  · simp [deferDeleteNow]
  · simp [deferDeleteNow]
  · intro rest cs
    simp [downloader, hd]

/-- C5 (amended), witness: a rejected signature. -/
theorem download_invalid_reports_nil_witness :
    ∃ w1, download (toyEnv "42") (artifactClnt [1, 2, 3] [0]) (World.start installedFS)
        = .returned w1 none ∧
      w1.stdout = ["downloading file\n", "wrong checksum: 06 vs 00\n"] ∧
      w1.slept = [10000000000] := by
  obtain ⟨w1, h1, h2, h3, _⟩ := download_invalid_reports_nil (toyEnv "42")
    (artifactClnt [1, 2, 3] [0]) (World.start installedFS) "42" [1, 2, 3] [0] rfl rfl rfl rfl
  exact ⟨w1, h1, by rw [h2]; decide, by rw [h3]; rfl⟩

/-! ### walk and the pre-order traversal -/

theorem preorderAll_append (us vs : List RTree) :
    preorderAll (us ++ vs) = preorderAll us ++ preorderAll vs := by
  induction us with
  | nil => simp [preorderAll]
  | cons u us ih => simp [preorderAll, ih]

/-- The loop over one batch sends the pre-order traversal of the entries of the
batch, when the recursive call does so for every non-skipped directory of it. -/
theorem walkEntries_preorder (recurse : String → List Dir → WalkResult) (path : String) :
    ∀ (us : List RTree),
      (∀ t ∈ us, skip t.entry.Name = false → t.entry.Mode &&& DMDIR ≠ 0 →
        ∀ sent, recurse (path ++ "/" ++ t.entry.Name) sent
          = .done (sent ++ preorderAll t.children)) →
      ∀ sent, walkEntries recurse path (us.map RTree.entry) sent
        = .done (sent ++ preorderAll us) := by
  intro us
  induction us with
  | nil => intro _ sent; simp [walkEntries, preorderAll]
  | cons u us ih =>
    intro hrec sent
    obtain ⟨e, cs⟩ := u
    have ih1 := ih (fun t ht => hrec t (List.mem_cons_of_mem _ ht))
    have hu := hrec (.node e cs) (List.mem_cons_self _ _)
    simp only [RTree.entry, RTree.children] at hu
    simp only [List.map_cons, RTree.entry, walkEntries, preorderAll, preorder]
    by_cases hs : skip e.Name = true
    · simp [hs, ih1]
    · have hs : skip e.Name = false := by simpa using hs
      by_cases hd : e.Mode &&& DMDIR = 0
      · simp [hs, hd, ih1]
      · simp [hs, hd, hu hs hd, ih1]

/-- The loop over the batches of a directory sends the pre-order traversal of
its entries. -/
theorem walkBatches_preorder (recurse : String → List Dir → WalkResult) (path : String)
    (rest : List (Except String (List Dir))) (hrest : rest = [] ∨ ∃ tl, rest = .ok [] :: tl) :
    ∀ (bs : List (List Dir)) (ts : List RTree),
      (∀ b ∈ bs, b ≠ []) → bs.flatten = ts.map RTree.entry →
      (∀ t ∈ ts, skip t.entry.Name = false → t.entry.Mode &&& DMDIR ≠ 0 →
        ∀ sent, recurse (path ++ "/" ++ t.entry.Name) sent
          = .done (sent ++ preorderAll t.children)) →
      ∀ sent, walkBatches recurse path (bs.map Except.ok ++ rest) sent
        = .done (sent ++ preorderAll ts) := by
  intro bs
  induction bs with
  | nil =>
    intro ts _ hjoin _ sent
    have hts : ts = [] := by simpa using hjoin.symm
    subst hts
    rcases hrest with h | ⟨tl, h⟩ <;> subst h <;> simp [walkBatches, preorderAll]
  | cons b bs ih =>
    intro ts hne hjoin hrec sent
    have hb : b ≠ [] := hne b (List.mem_cons_self _ _)
    rw [List.flatten_cons] at hjoin
    obtain ⟨us, vs, rfl, hus, hvs⟩ := List.map_eq_append_iff.mp hjoin.symm
    have h1 := walkEntries_preorder recurse path us
      (fun t ht => hrec t (List.mem_append_left _ ht)) sent
    rw [hus] at h1
    have h2 := ih vs (fun x hx => hne x (List.mem_cons_of_mem _ hx)) hvs.symm
      (fun t ht => hrec t (List.mem_append_right _ ht)) (sent ++ preorderAll us)
    have hlen : b.length ≠ 0 := by
      intro h0
      exact hb (List.length_eq_zero.mp h0)
    rw [preorderAll_append, ← List.append_assoc, ← h2]
    simp only [List.map_cons, List.cons_append, walkBatches, hlen, if_false, h1]
    rfl

/-- One fuel serves all the directories of a listing. -/
theorem uniform_fuel (c : Clnt) (path : String) :
    ∀ (ts : List RTree),
      (∀ t ∈ ts, skip t.entry.Name = false → t.entry.Mode &&& DMDIR ≠ 0 →
        ∃ fuel, ∀ fuel1, fuel ≤ fuel1 → ∀ sent, walk c fuel1 (path ++ "/" ++ t.entry.Name) sent
          = .done (sent ++ preorderAll t.children)) →
      ∃ fuel, ∀ t ∈ ts, skip t.entry.Name = false → t.entry.Mode &&& DMDIR ≠ 0 →
        ∀ fuel1, fuel ≤ fuel1 → ∀ sent, walk c fuel1 (path ++ "/" ++ t.entry.Name) sent
          = .done (sent ++ preorderAll t.children) := by
  intro ts
  induction ts with
  | nil => intro _; exact ⟨0, fun t ht => by cases ht⟩
  | cons u us ih =>
    intro h
    obtain ⟨n, hn⟩ := ih (fun t ht => h t (List.mem_cons_of_mem _ ht))
    by_cases hu : skip u.entry.Name = false ∧ u.entry.Mode &&& DMDIR ≠ 0
    · obtain ⟨m, hm⟩ := h u (List.mem_cons_self _ _) hu.1 hu.2
      refine ⟨max m n, ?_⟩
      intro t ht hs hd fuel1 hf sent
      rcases List.mem_cons.mp ht with rfl | ht
      · exact hm fuel1 (le_trans (le_max_left _ _) hf) sent
      · exact hn t ht hs hd fuel1 (le_trans (le_max_right _ _) hf) sent
    · refine ⟨n, ?_⟩
      intro t ht hs hd fuel1 hf sent
      rcases List.mem_cons.mp ht with rfl | ht
      · exact absurd ⟨hs, hd⟩ hu
      · exact hn t ht hs hd fuel1 hf sent

/-- C8: for every finite remote tree that the connection serves in non-empty
batches followed by the end of the directory, `walk` returns (for every fuel
from some bound on) and has sent, after what was sent before, exactly the
depth-first pre-order traversal of the tree restricted to non-skipped entries. -/
theorem walk_emits_preorder (c : Clnt) (path : String) (ts : List RTree)
    (h : Serves c path ts) :
    ∃ fuel, ∀ fuel1, fuel ≤ fuel1 → ∀ sent,
      walk c fuel1 path sent = .done (sent ++ preorderAll ts) := by
  induction h with
  | intro path ts file bs rest hopen hbatches hrest hne hjoin _ ih =>
    obtain ⟨n, hn⟩ := uniform_fuel c path ts ih
    refine ⟨n + 1, ?_⟩
    intro fuel1 hf sent
    obtain ⟨f, rfl⟩ : ∃ f, fuel1 = f + 1 := ⟨fuel1 - 1, by omega⟩
    simp only [walk, hopen, hbatches]
    exact walkBatches_preorder (walk c f) path rest hrest bs ts hne hjoin
      (fun t ht hs hd sent1 => hn t ht hs hd f (by omega) sent1) sent

theorem treeClnt_serves_y : Serves treeClnt "//a/y" [] :=
  Serves.intro "//a/y" [] { content := [], batches := [] } [] [] rfl rfl (Or.inl rfl)
    (fun b hb => by cases hb) rfl (fun t ht => by cases ht)

theorem treeClnt_serves_a :
    Serves treeClnt "//a" [.node ⟨"x", 0⟩ [], .node ⟨"y", DMDIR + 0o755⟩ []] := by
  refine Serves.intro "//a" _ { content := [], batches := [.ok [⟨"x", 0⟩], .ok [⟨"y", DMDIR + 0o755⟩]] }
    [[⟨"x", 0⟩], [⟨"y", DMDIR + 0o755⟩]] [] rfl rfl (Or.inl rfl) (by simp) rfl ?_
  intro t ht hs hd
  simp only [List.mem_cons, List.mem_singleton, List.not_mem_nil, or_false] at ht
  rcases ht with rfl | rfl
  · exact absurd (by decide) hd
  · exact treeClnt_serves_y

theorem treeClnt_serves_root : Serves treeClnt "/" treeRoot := by
  refine Serves.intro "/" _
    { content := [], batches :=
        [.ok [⟨"a", DMDIR⟩, ⟨".git", DMDIR⟩], .ok [⟨"b.sha256", 0⟩, ⟨"c", 0⟩], .ok []] }
    [[⟨"a", DMDIR⟩, ⟨".git", DMDIR⟩], [⟨"b.sha256", 0⟩, ⟨"c", 0⟩]] [.ok []] rfl rfl
    (Or.inr ⟨[], rfl⟩) (by simp) rfl ?_
  intro t ht hs hd
  simp only [treeRoot, List.mem_cons, List.mem_singleton, List.not_mem_nil, or_false] at ht
  rcases ht with rfl | rfl | rfl | rfl
  · exact treeClnt_serves_a
  · exact absurd hs (by decide)
  · exact absurd hs (by decide)
  · exact absurd (by decide) hd

/-- C8, witness: on the tree of `treeClnt`, `walk` sends `a`, `x`, `y`, `c`:
the skipped directory `.git` and the sidecar `b.sha256` are left out, and what
is below `a` comes right after `a`. -/
theorem walk_emits_preorder_witness :
    Serves treeClnt "/" treeRoot ∧
    preorderAll treeRoot = [⟨"a", DMDIR⟩, ⟨"x", 0⟩, ⟨"y", DMDIR + 0o755⟩, ⟨"c", 0⟩] ∧
    walk treeClnt 3 "/" [] = .done [⟨"a", DMDIR⟩, ⟨"x", 0⟩, ⟨"y", DMDIR + 0o755⟩, ⟨"c", 0⟩] ∧
    ∃ fuel, ∀ fuel1, fuel ≤ fuel1 → ∀ sent,
      walk treeClnt fuel1 "/" sent = .done (sent ++ preorderAll treeRoot) :=
  ⟨treeClnt_serves_root, by decide, by decide,
    walk_emits_preorder treeClnt "/" treeRoot treeClnt_serves_root⟩

/-! ### The channels between the producer and handleSignals -/

/-- C10 (as stated) fails: with `register` and `deleteNow` for one path both
waiting, the `select` may take `deleteNow` first; the coordinator then processes
`deleteNow(path)` before `register(path)` and the path stays in the registry
after both. -/
theorem coordinator_may_process_deleteNow_first :
    (Sys.run [.send, .send, .recvDeleteNow, .recvToDelete]
        (Sys.start twoTempFS [".download-1"])).map
      (fun s => (s.pending, s.w.toDelete, s.w.deleteNow, s.processed, s.w.toBeDeleted))
    = some ([], [], [], [.deleteNow ".download-1", .register ".download-1"], [".download-1"]) := by
  decide

theorem registers_append (ms ns : List Msg) :
    registers (ms ++ ns) = registers ms ++ registers ns := by
  induction ms with
  | nil => rfl
  | cons m ms ih => cases m <;> simp [registers, ih]

theorem deletes_append (ms ns : List Msg) :
    deletes (ms ++ ns) = deletes ms ++ deletes ns := by
  induction ms with
  | nil => rfl
  | cons m ms ih => cases m <;> simp [deletes, ih]

theorem producer_cons (p : String) (rest : List String) :
    producer (p :: rest) = .register p :: .deleteNow p :: producer rest := by
  simp [producer]

theorem Sys.start_inv (fs : FS) (paths : List String) : Sys.Inv paths (Sys.start fs paths) := by
  refine ⟨rfl, rfl, 0, Or.inl ⟨by simp [Sys.start], ?_, ?_⟩⟩ <;>
    simp [Sys.start, Sys.sentRegisters, Sys.sentDeletes, World.start, registers, deletes]

theorem take_succ_of_drop (p : String) (rest : List String) :
    ∀ (k : Nat) (paths : List String), paths.drop k = p :: rest →
      paths.take (k + 1) = paths.take k ++ [p] ∧ paths.drop (k + 1) = rest := by
  intro k
  induction k with
  | zero =>
    intro paths h
    simp only [List.drop_zero] at h
    subst h
    simp
  | succ k ih =>
    intro paths h
    cases paths with
    | nil => simp at h
    | cons x xs =>
      simp only [List.drop_succ_cons] at h
      obtain ⟨h1, h2⟩ := ih xs h
      exact ⟨by simp only [List.take_succ_cons, h1, List.cons_append], by
        simpa only [List.drop_succ_cons] using h2⟩

theorem Sys.step_inv (paths : List String) (a : Action) (s s1 : Sys)
    (hinv : Sys.Inv paths s) (hstep : s.step a = some s1) : Sys.Inv paths s1 := by
  obtain ⟨hex, hreg, k, hk⟩ := hinv
  cases a with
  | send =>
    rcases hk with ⟨hp, hr, hd⟩ | ⟨p, rest, hdrop, hp, hr, hd⟩
    · cases hdk : paths.drop k with
      | nil =>
        rw [hdk] at hp
        simp [Sys.step, hp, producer] at hstep
      | cons p rest =>
        rw [hdk, producer_cons] at hp
        simp only [Sys.step, hp] at hstep
        split at hstep
        · simp only [Option.some.injEq] at hstep
          subst hstep
          refine ⟨hex, hreg, k, Or.inr ⟨p, rest, hdk, rfl, ?_, hd⟩⟩
          simp only [Sys.sentRegisters] at hr ⊢
          rw [← List.append_assoc, hr]
        · cases hstep
    · simp only [Sys.step, hp] at hstep
      split at hstep
      · simp only [Option.some.injEq] at hstep
        subst hstep
        obtain ⟨ht, hdr⟩ := take_succ_of_drop p rest k paths hdrop
        refine ⟨hex, hreg, k + 1, Or.inl ⟨by rw [hdr], by rw [ht]; exact hr, ?_⟩⟩
        simp only [Sys.sentDeletes] at hd ⊢
        rw [← List.append_assoc, hd, ht]
      · cases hstep
  | recvToDelete =>
    cases hq : s.w.toDelete with
    | nil => simp [Sys.step, hq] at hstep
    | cons reg q =>
      simp only [Sys.step, hq, Option.some.injEq] at hstep
      subst hstep
      have hR : Sys.sentRegisters
          { s with w := handleSignals (.register reg) { s.w with toDelete := q },
                   processed := s.processed ++ [.register reg] } = s.sentRegisters := by
        simp [Sys.sentRegisters, handleSignals, hex, registers_append, registers, hq]
      have hD : Sys.sentDeletes
          { s with w := handleSignals (.register reg) { s.w with toDelete := q },
                   processed := s.processed ++ [.register reg] } = s.sentDeletes := by
        simp [Sys.sentDeletes, handleSignals, hex, deletes_append, deletes]
      refine ⟨by simp [handleSignals, hex], ?_, k, ?_⟩
      · simp [handleSignals, hex, registryOf, hreg]
      · rw [hR, hD]
        exact hk
  | recvDeleteNow =>
    cases hq : s.w.deleteNow with
    | nil => simp [Sys.step, hq] at hstep
    | cons file q =>
      simp only [Sys.step, hq, Option.some.injEq] at hstep
      subst hstep
      have hR : Sys.sentRegisters
          { s with w := handleSignals (.deleteNow file) { s.w with deleteNow := q },
                   processed := s.processed ++ [.deleteNow file] } = s.sentRegisters := by
        simp [Sys.sentRegisters, handleSignals, hex, registers_append, registers]
      have hD : Sys.sentDeletes
          { s with w := handleSignals (.deleteNow file) { s.w with deleteNow := q },
                   processed := s.processed ++ [.deleteNow file] } = s.sentDeletes := by
        simp [Sys.sentDeletes, handleSignals, hex, deletes_append, deletes, hq]
      refine ⟨by simp [handleSignals, hex], ?_, k, ?_⟩
      · simp [handleSignals, hex, registryOf, hreg]
      · rw [hR, hD]
        exact hk

theorem Sys.run_inv (paths : List String) (sched : List Action) :
    ∀ (s s1 : Sys), Sys.Inv paths s → Sys.run sched s = some s1 → Sys.Inv paths s1 := by
  induction sched with
  | nil =>
    intro s s1 hinv hrun
    simp only [Sys.run, Option.some.injEq] at hrun
    exact hrun ▸ hinv
  | cons a as ih =>
    intro s s1 hinv hrun
    simp only [Sys.run] at hrun
    cases hst : s.step a with
    | none => simp [hst] at hrun
    | some s2 =>
      simp only [hst] at hrun
      exact ih s2 s1 (Sys.step_inv paths a s s2 hinv hst) hrun

theorem registryOf_append_singleton (ms : List Msg) (m : Msg) :
    registryOf (ms ++ [m]) =
      match m with
      | .register q => mapSet (registryOf ms) q
      | .deleteNow q => mapDelete (registryOf ms) q
      | .signal _ => registryOf ms := by
  simp [registryOf, List.foldl_append]

/-- After `deleteNow p` and further messages none of which is `register p`, the
path `p` is not in the registry. -/
theorem registryOf_not_mem (p : String) (pre : List Msg) :
    ∀ post : List Msg, Msg.register p ∉ post →
      p ∉ registryOf (pre ++ Msg.deleteNow p :: post) := by
  intro post
  induction post using List.reverseRecOn with
  | nil =>
    intro _
    rw [registryOf_append_singleton]
    simp [mem_mapDelete]
  | append_singleton post m ih =>
    intro hpost
    have h1 : Msg.register p ∉ post := fun h => hpost (List.mem_append_left _ h)
    have h2 : m ≠ Msg.register p := fun h => hpost (by simp [h])
    have := ih h1
    rw [show pre ++ Msg.deleteNow p :: (post ++ [m]) = (pre ++ Msg.deleteNow p :: post) ++ [m]
      by simp, registryOf_append_singleton]
    cases m with
    | register q =>
      have hq : p ≠ q := fun h => h2 (by rw [h])
      simp only [mem_mapSet, not_or]
      exact ⟨this, hq⟩
    | deleteNow q =>
      simp only [mem_mapDelete, not_and]
      exact fun h => absurd h this
    | signal sg => exact this

/-- After `register p` and further messages none of which is `deleteNow p`, the
path `p` is in the registry. -/
theorem registryOf_mem (p : String) (pre : List Msg) :
    ∀ post : List Msg, Msg.deleteNow p ∉ post →
      p ∈ registryOf (pre ++ Msg.register p :: post) := by
  intro post
  induction post using List.reverseRecOn with
  | nil =>
    intro _
    rw [registryOf_append_singleton]
    simp [mem_mapSet]
  | append_singleton post m ih =>
    intro hpost
    have h1 : Msg.deleteNow p ∉ post := fun h => hpost (List.mem_append_left _ h)
    have h2 : m ≠ Msg.deleteNow p := fun h => hpost (by simp [h])
    have := ih h1
    rw [show pre ++ Msg.register p :: (post ++ [m]) = (pre ++ Msg.register p :: post) ++ [m]
      by simp, registryOf_append_singleton]
    cases m with
    | register q =>
      simp only [mem_mapSet]
      exact Or.inl this
    | deleteNow q =>
      have hq : p ≠ q := fun h => h2 (by rw [h])
      simp only [mem_mapDelete]
      exact ⟨this, hq⟩
    | signal sg => exact this

/-- C10 (amended): in every state that the producer and the coordinator reach,
the paths sent on `deleteNow` are a prefix of the paths sent on `toDelete`, which
are a prefix of the paths of the producer: `deleteNow(path)` is never sent, and
so never processed, before `register(path)` has been sent, though it may be
processed while `register(path)` still waits. A path is absent from the registry
when the last processed message about it is `deleteNow`, and present when that
message is `register`. -/
theorem deleteNow_never_sent_before_register (fs : FS) (paths : List String)
    (sched : List Action) (s : Sys) (hrun : Sys.run sched (Sys.start fs paths) = some s) :
    (deletes s.processed ++ s.w.deleteNow) <+: (registers s.processed ++ s.w.toDelete) ∧
    (registers s.processed ++ s.w.toDelete) <+: paths ∧
    (∀ p pre post, s.processed = pre ++ Msg.deleteNow p :: post → Msg.register p ∉ post →
      p ∉ s.w.toBeDeleted) ∧
    (∀ p pre post, s.processed = pre ++ Msg.register p :: post → Msg.deleteNow p ∉ post →
      p ∈ s.w.toBeDeleted) := by
  obtain ⟨_, hreg, k, hk⟩ := Sys.run_inv paths sched _ s (Sys.start_inv fs paths) hrun
  refine ⟨?_, ?_, ?_, ?_⟩
  · rcases hk with ⟨_, hr, hd⟩ | ⟨p, rest, _, _, hr, hd⟩
    · simp only [Sys.sentRegisters, Sys.sentDeletes] at hr hd
      rw [hr, hd]
    · simp only [Sys.sentRegisters, Sys.sentDeletes] at hr hd
      rw [hr, hd]
      exact List.prefix_append _ _
  · rcases hk with ⟨_, hr, _⟩ | ⟨p, rest, hdrop, _, hr, _⟩
    · simp only [Sys.sentRegisters] at hr
      rw [hr]
      exact List.take_prefix _ _
    · simp only [Sys.sentRegisters] at hr
      rw [hr, ← (take_succ_of_drop p rest k paths hdrop).1]
      exact List.take_prefix _ _
  · intro p pre post hproc hpost
    rw [hreg, hproc]
    exact registryOf_not_mem p pre post hpost
  · intro p pre post hproc hpost
    rw [hreg, hproc]
    exact registryOf_mem p pre post hpost

/-- C10 (amended), witness: the run in which the coordinator takes each message
as soon as it is sent. -/
theorem deleteNow_never_sent_before_register_witness :
    Sys.run [.send, .recvToDelete, .send, .recvDeleteNow] (Sys.start twoTempFS [".download-1"])
      = some { pending := [],
               w := { (World.start twoTempFS) with
                        fs := twoTempFS.remove ".download-1"
                        stdout := ["deleting now .download-1\n"] },
               processed := [.register ".download-1", .deleteNow ".download-1"] } ∧
    ".download-1" ∉ ({ (World.start twoTempFS) with
                        fs := twoTempFS.remove ".download-1"
                        stdout := ["deleting now .download-1\n"] } : World).toBeDeleted := by
  have hrun : Sys.run [.send, .recvToDelete, .send, .recvDeleteNow]
      (Sys.start twoTempFS [".download-1"])
      = some { pending := [],
               w := { (World.start twoTempFS) with
                        fs := twoTempFS.remove ".download-1"
                        stdout := ["deleting now .download-1\n"] },
               processed := [.register ".download-1", .deleteNow ".download-1"] } := rfl
  exact ⟨hrun, (deleteNow_never_sent_before_register twoTempFS [".download-1"] _ _ hrun).2.2.1
    ".download-1" [.register ".download-1"] [] rfl (by simp)⟩

end Noce
